import Mathlib

/-
  Verification of the trait-obligation elaboration engine in
  compiler/rustc_infer/src/traits/util.rs.

  The data model (predicates, clauses, binders) and the collaborator
  interfaces (TyCtxt queries, outlives components, bound-variable
  anonymization) are shallowly embedded; the engine itself
  (PredicateSet, Elaboratable, Elaborator, FilterToTraits) is translated
  function by function from the source.
-/

namespace TraitElaboration

/-- Identifier of a trait definition (DefId in the source). -/
abbrev DefId := Nat

/-- Name of an associated item (Ident in the source). -/
abbrev Ident := String

/-- Diagnostic location attached to a declared implication (Span in the source). -/
abbrev Span := Nat

/-- A region (lifetime).  A bound region is one still under a binder
(a universally quantified, not yet instantiated region). -/
inductive Region where
  | named : Nat → Region
  | bound : Nat → Region
  | staticRegion : Region
deriving DecidableEq, Repr

/-- Mirrors Region::is_bound in the source tree: true exactly on bound regions. -/
def Region.is_bound : Region → Bool
  | .bound _ => true
  | _ => false

/-- Types, kept just structured enough for the engine: parameters and
placeholders can be rebuilt from outlives components, aliases have a
to_ty view, and every other type is an opaque atom. -/
inductive Ty where
  | param : Nat → String → Ty
  | placeholder : Nat → Ty
  | aliasTy : Nat → Ty
  | other : Nat → Ty
deriving DecidableEq, Repr

/-- An alias (projection) type, as carried by an outlives component. -/
structure AliasTy where
  id : Nat
deriving DecidableEq, Repr

/-- The view of an alias as a type (AliasTy::to_ty in the source tree). -/
def AliasTy.to_ty (a : AliasTy) : Ty := Ty.aliasTy a.id

/-- A generic type parameter as carried by an outlives component. -/
structure ParamTy where
  index : Nat
  name : String
deriving DecidableEq, Repr

/-- Structural components produced by decomposing a type for outlives
elaboration (rustc_type_ir::outlives::Component). -/
inductive Component where
  | region : Region → Component
  | param : ParamTy → Component
  | placeholder : Nat → Component
  | unresolvedInferenceVariable : Nat → Component
  | aliasComp : AliasTy → Component
  | escapingAlias : Nat → Component
deriving DecidableEq, Repr

/-- One bound variable of a binder.  Anonymization replaces every named
bound variable with a positional anonymous one. -/
inductive BoundVarKind where
  | named : String → BoundVarKind
  | anon : Nat → BoundVarKind
deriving DecidableEq, Repr

/-- A binder: a value together with the list of bound variables it
quantifies over.  Occurrences inside the value refer to bound variables
positionally, so two binders that differ only in the cosmetic names of
their bound variables have equal values and bound-variable lists of
equal length. -/
structure Binder (α : Type) where
  bound_vars : List BoundVarKind
  value : α
deriving DecidableEq, Repr

/-- Binder::skip_binder. -/
def Binder.skip_binder {α : Type} (b : Binder α) : α := b.value

/-- Binder::rebind: wrap a new value in the same binder. -/
def Binder.rebind {α β : Type} (b : Binder α) (x : β) : Binder β :=
  { bound_vars := b.bound_vars, value := x }

/-- Binder::map_bound. -/
def Binder.map_bound {α β : Type} (f : α → β) (b : Binder α) : Binder β :=
  { bound_vars := b.bound_vars, value := f b.value }

/-- A trait reference: the subject type and arguments are opaque type
arguments, the capability is a DefId. -/
structure TraitRef where
  def_id : DefId
  args : List Ty
deriving DecidableEq, Repr

/-- Polarity of a trait bound. -/
inductive Polarity where
  | positive
  | negative
deriving DecidableEq, Repr

/-- A trait predicate: a trait reference with a polarity. -/
structure TraitPredicate where
  trait_ref : TraitRef
  polarity : Polarity
deriving DecidableEq, Repr

/-- TraitPredicate::def_id. -/
def TraitPredicate.def_id (t : TraitPredicate) : DefId := t.trait_ref.def_id

/-- PolyTraitPredicate::def_id (def_id of the value under the binder). -/
def polyTraitPredicateDefId (t : Binder TraitPredicate) : DefId :=
  t.skip_binder.def_id

/-- The kinds of clause the engine distinguishes (ty::ClauseKind). -/
inductive ClauseKind where
  | traitClause : TraitPredicate → ClauseKind
  | typeOutlives : Ty → Region → ClauseKind
  | regionOutlives : Region → Region → ClauseKind
  | wellFormed : Ty → ClauseKind
  | projection : Nat → ClauseKind
  | constEvaluatable : Nat → ClauseKind
  | constArgHasType : Nat → ClauseKind
deriving DecidableEq, Repr

/-- A clause is a binder over a clause kind (ty::Clause); Clause::kind
is the binder itself. -/
abbrev Clause := Binder ClauseKind

/-- The kind of a predicate: every clause kind is a predicate kind, and
there are further, non-clause predicate forms that the engine treats as
leaves. -/
inductive PredicateKind where
  | clause : ClauseKind → PredicateKind
  | nonClause : Nat → PredicateKind
deriving DecidableEq, Repr

/-- A predicate is a binder over a predicate kind (ty::Predicate). -/
abbrev Predicate := Binder PredicateKind

/-- Clause::as_predicate. -/
def Clause.as_predicate (c : Clause) : Predicate :=
  { bound_vars := c.bound_vars, value := PredicateKind.clause c.value }

/-- Predicate::as_clause: succeeds exactly on clause predicates. -/
def Predicate.as_clause (p : Predicate) : Option Clause :=
  match p.value with
  | .clause k => some { bound_vars := p.bound_vars, value := k }
  | .nonClause _ => none

/-- Modelled from the spec: Predicate::as_trait_clause lives in
rustc_middle, outside this repository slice; section 4.5 of the spec has
the trait-reference filter keep exactly the positive-polarity
capability-bound predicates and extract their capability reference. -/
def Predicate.as_trait_clause (p : Predicate) : Option (Binder TraitPredicate) :=
  match p.value with
  | .clause (.traitClause data) =>
      if data.polarity = Polarity.positive then some (p.rebind data) else none
  | _ => none

/-- Modelled from the spec: tcx.anonymize_bound_vars lives in
rustc_middle, outside this repository slice; section 4.1 of the spec has
it replace the bound-variable identifiers with position-based canonical
names, leaving the body untouched. -/
def Binder.anonymize {α : Type} (b : Binder α) : Binder α :=
  { bound_vars := (List.range b.bound_vars.length).map BoundVarKind.anon,
    value := b.value }

/-- Modelled from the spec: the collaborator interfaces of section 6
that this engine consumes as black boxes — the declared-implication
queries, supertrait instantiation, and the structural outlives walk. -/
structure TyCtxt where
  explicit_implied_predicates_of : DefId → List (Clause × Span)
  explicit_super_predicates_of : DefId → List (Clause × Span)
  explicit_supertraits_containing_assoc_item : DefId → Ident → List (Clause × Span)
  instantiate_supertrait : Clause → Binder TraitRef → Clause
  push_outlives_components : Ty → List Component

/-- anonymize_predicate from the source: anonymize the bound variables
of the predicate's kind and rebuild the predicate. -/
def anonymize_predicate (_tcx : TyCtxt) (pred : Predicate) : Predicate :=
  Binder.anonymize pred

/-- PredicateSet: the visited set of canonical keys (the backing
FxHashSet is modelled as the list of inserted keys). -/
structure PredicateSet where
  tcx : TyCtxt
  set : List Predicate

/-- PredicateSet::new. -/
def PredicateSet.new (tcx : TyCtxt) : PredicateSet :=
  { tcx := tcx, set := [] }

/-- PredicateSet::insert: normalize late-bound regions via
anonymize_predicate, then insert into the backing set; returns whether
the key was newly inserted, together with the updated set. -/
def PredicateSet.insert (s : PredicateSet) (pred : Predicate) : Bool × PredicateSet :=
  let key := anonymize_predicate s.tcx pred
  if key ∈ s.set then (false, s)
  else (true, { s with set := key :: s.set })

/-- The Elaboratable capability: how to read an obligation's predicate
and how to build child obligations from a derived clause, with or
without extending the causal chain. -/
structure Elaboratable (O : Type) where
  predicate : O → Predicate
  child : O → Clause → O
  child_with_derived_cause : O → Clause → Span → Binder TraitPredicate → Nat → O

/-- The Elaboratable instance for bare ty::Predicate. -/
def elabPredicate : Elaboratable Predicate where
  predicate := fun p => p
  child := fun _ clause => clause.as_predicate
  child_with_derived_cause := fun _ clause _ _ _ => clause.as_predicate

/-- The Elaboratable instance for bare ty::Clause. -/
def elabClause : Elaboratable Clause where
  predicate := fun c => c.as_predicate
  child := fun _ clause => clause
  child_with_derived_cause := fun _ clause _ _ _ => clause

/-- The Elaboratable instance for (ty::Predicate, Span). -/
def elabPredicateSpan : Elaboratable (Predicate × Span) where
  predicate := fun x => x.1
  child := fun x clause => (clause.as_predicate, x.2)
  child_with_derived_cause := fun x clause _ _ _ => (clause.as_predicate, x.2)

/-- The Elaboratable instance for (ty::Clause, Span). -/
def elabClauseSpan : Elaboratable (Clause × Span) where
  predicate := fun x => x.1.as_predicate
  child := fun x clause => (clause, x.2)
  child_with_derived_cause := fun x clause _ _ _ => (clause, x.2)

/-- An obligation cause code; ImplDerived records the parent capability
bound, the parent code, the declaring capability, the index of the
declared implication and its location. -/
inductive ObligationCauseCode where
  | misc : Nat → ObligationCauseCode
  | implDerived :
      Binder TraitPredicate → ObligationCauseCode → DefId → Option Nat → Span →
      ObligationCauseCode
deriving DecidableEq

/-- PredicateObligation: the richest obligation representation, carrying
cause, environment and a recursion-depth counter. -/
structure PredicateObligation where
  cause : ObligationCauseCode
  param_env : Nat
  recursion_depth : Nat
  predicate : Predicate
deriving DecidableEq

/-- The Elaboratable instance for PredicateObligation: a plain child
inherits the cause and environment with depth reset to zero; a child
with derived cause additionally wraps the cause in ImplDerived. -/
def elabObligation : Elaboratable PredicateObligation where
  predicate := fun ob => ob.predicate
  child := fun ob clause =>
    { cause := ob.cause, param_env := ob.param_env, recursion_depth := 0,
      predicate := clause.as_predicate }
  child_with_derived_cause := fun ob clause span parent_trait_pred index =>
    { cause := ObligationCauseCode.implDerived parent_trait_pred ob.cause
        (polyTraitPredicateDefId parent_trait_pred) (some index) span,
      param_env := ob.param_env, recursion_depth := 0,
      predicate := clause.as_predicate }

/-- The elaboration mode (the Filter enum of the source). -/
inductive ElabFilterMode where
  | all
  | onlySelf
  | onlySelfThatDefines : Ident → ElabFilterMode
deriving DecidableEq

/-- The Elaborator: a stack of pending obligations (the Rust Vec keeps
the top of the stack at its end; here the top is at the head of the
list), the visited set and the active mode. -/
structure Elaborator (O : Type) where
  stack : List O
  visited : PredicateSet
  mode : ElabFilterMode

/-- The deduplication gate of extend_deduped: keep exactly the
obligations whose predicate is newly inserted into the visited set,
threading the set through the sequence of insertions. -/
def keepNewlyInserted {O : Type} (el : Elaboratable O) :
    PredicateSet → List O → List O × PredicateSet
  | v, [] => ([], v)
  | v, o :: os =>
    let r := v.insert (el.predicate o)
    let rest := keepNewlyInserted el r.2 os
    if r.1 then (o :: rest.1, rest.2) else rest

/-- Elaborator::extend_deduped: only keep those bounds not already
seen, then push them.  Vec::extend appends the kept obligations at the
top end of the stack, so with the top at the head this prepends their
reversal. -/
def Elaborator.extend_deduped {O : Type} (el : Elaboratable O)
    (e : Elaborator O) (obligations : List O) : Elaborator O :=
  let r := keepNewlyInserted el e.visited obligations
  { e with stack := r.1.reverse ++ e.stack, visited := r.2 }

/-- The elaborate entry point: a fresh Elaborator in All mode, seeded
through the deduplication gate. -/
def elaborate {O : Type} (el : Elaboratable O) (tcx : TyCtxt)
    (obligations : List O) : Elaborator O :=
  Elaborator.extend_deduped el
    { stack := [], visited := PredicateSet.new tcx, mode := ElabFilterMode.all }
    obligations

/-- Elaborator::filter_only_self. -/
def Elaborator.filter_only_self {O : Type} (e : Elaborator O) : Elaborator O :=
  { e with mode := ElabFilterMode.onlySelf }

/-- Elaborator::filter_only_self_that_defines. -/
def Elaborator.filter_only_self_that_defines {O : Type} (e : Elaborator O)
    (assoc_ty : Ident) : Elaborator O :=
  { e with mode := ElabFilterMode.onlySelfThatDefines assoc_ty }

/-- The closure of the outlives branch of Elaborator::elaborate: which
derived clause, if any, a structural component contributes. -/
def outlivesComponentToClause (r_min : Region) : Component → Option ClauseKind
  | .region r =>
      if r.is_bound then none
      else some (ClauseKind.regionOutlives r r_min)
  | .param p => some (ClauseKind.typeOutlives (Ty.param p.index p.name) r_min)
  | .placeholder p => some (ClauseKind.typeOutlives (Ty.placeholder p) r_min)
  | .unresolvedInferenceVariable _ => none
  | .aliasComp alias_ty => some (ClauseKind.typeOutlives alias_ty.to_ty r_min)
  | .escapingAlias _ => none

/-- The immediate implications of one obligation, as computed by the
body of Elaborator::elaborate before they reach extend_deduped: nothing
for non-clause predicates; for a positive trait bound the declared
implication list selected by the mode, instantiated against the bound
and wrapped via child_with_derived_cause with its index; nothing for a
negative trait bound; for a type-outlives bound with a non-bound target
the kept structural components, wrapped via child; nothing for the
remaining clause kinds. -/
def childObligations {O : Type} (el : Elaboratable O) (tcx : TyCtxt)
    (mode : ElabFilterMode) (elaboratable : O) : List O :=
  match (el.predicate elaboratable).as_clause with
  | none => []
  | some clause =>
    let bound_clause := clause
    match bound_clause.skip_binder with
    | .traitClause data =>
      if data.polarity ≠ Polarity.positive then []
      else
        let predicates :=
          match mode with
          | .all => tcx.explicit_implied_predicates_of data.trait_ref.def_id
          | .onlySelf => tcx.explicit_super_predicates_of data.trait_ref.def_id
          | .onlySelfThatDefines ident =>
              tcx.explicit_supertraits_containing_assoc_item data.trait_ref.def_id ident
        predicates.enum.map fun x =>
          el.child_with_derived_cause elaboratable
            (tcx.instantiate_supertrait x.2.1 (bound_clause.rebind data.trait_ref))
            x.2.2 (bound_clause.rebind data) x.1
    | .typeOutlives ty_max r_min =>
      if r_min.is_bound then []
      else
        ((tcx.push_outlives_components ty_max).filterMap
            (outlivesComponentToClause r_min)).map
          fun ck => el.child elaboratable (bound_clause.rebind ck)
    | .regionOutlives _ _ => []
    | .wellFormed _ => []
    | .projection _ => []
    | .constEvaluatable _ => []
    | .constArgHasType _ => []

/-- Elaborator::elaborate: push the immediate implications of the given
obligation through the deduplication gate. -/
def Elaborator.elaborate {O : Type} (el : Elaboratable O) (e : Elaborator O)
    (elaboratable : O) : Elaborator O :=
  Elaborator.extend_deduped el e
    (childObligations el e.visited.tcx e.mode elaboratable)

/-- Iterator::next for the Elaborator: pop the top obligation, elaborate
it, and return it; exhausted when the stack is empty. -/
def Elaborator.next {O : Type} (el : Elaboratable O) (e : Elaborator O) :
    Option (O × Elaborator O) :=
  match e.stack with
  | [] => none
  | obligation :: stack1 =>
      some (obligation,
        Elaborator.elaborate el { e with stack := stack1 } obligation)

/-- Iterator::size_hint for the Elaborator. -/
def Elaborator.size_hint {O : Type} (e : Elaborator O) : Nat × Option Nat :=
  (e.stack.length, none)

/-- One pull on the iterator, keeping only the state (the exhausted
state is a fixed point). -/
def stepOnce {O : Type} (el : Elaboratable O) (e : Elaborator O) : Elaborator O :=
  match Elaborator.next el e with
  | none => e
  | some oe => oe.2

/-- Iterate n pulls on the iterator. -/
def iterSteps {O : Type} (el : Elaboratable O) : Nat → Elaborator O → Elaborator O
  | 0, e => e
  | n + 1, e => iterSteps el n (stepOnce el e)

/-- Pull up to n values from the iterator, collecting the produced
obligations in order together with the final state. -/
def runOutputs {O : Type} (el : Elaboratable O) :
    Nat → Elaborator O → List O × Elaborator O
  | 0, e => ([], e)
  | n + 1, e =>
    match Elaborator.next el e with
    | none => ([], e)
    | some oe =>
        let r := runOutputs el n oe.2
        (oe.1 :: r.1, r.2)

/-- Iterator::next for FilterToTraits over a predicate sequence
(modelled by the list of values the underlying iterator has yet to
produce): pull until a predicate with a trait clause appears, and return
its trait reference together with the rest of the sequence. -/
def FilterToTraits.next : List Predicate → Option (Binder TraitRef × List Predicate)
  | [] => none
  | pred :: rest =>
    match pred.as_trait_clause with
    | some data => some (Binder.map_bound TraitPredicate.trait_ref data, rest)
    | none => FilterToTraits.next rest

/-- All values FilterToTraits produces from a predicate sequence. -/
def FilterToTraits.run : List Predicate → List (Binder TraitRef)
  | [] => []
  | pred :: rest =>
    match pred.as_trait_clause with
    | some data => Binder.map_bound TraitPredicate.trait_ref data :: FilterToTraits.run rest
    | none => FilterToTraits.run rest

/-- Iterator::size_hint of the list iterator underlying FilterToTraits. -/
def listIterSizeHint (l : List Predicate) : Nat × Option Nat :=
  (l.length, some l.length)

/-- Iterator::size_hint for FilterToTraits: lower bound zero, upper
bound that of the underlying iterator. -/
def FilterToTraits.size_hint (l : List Predicate) : Nat × Option Nat :=
  (0, (listIterSizeHint l).2)

/-- The canonical key of an obligation: the anonymization of its
predicate, exactly what PredicateSet::insert stores. -/
def keyOf {O : Type} (el : Elaboratable O) (o : O) : Predicate :=
  Binder.anonymize (el.predicate o)

/-- Apply one of the three mode-selecting entry points to an Elaborator. -/
def applyMode {O : Type} (e : Elaborator O) : ElabFilterMode → Elaborator O
  | .all => e
  | .onlySelf => e.filter_only_self
  | .onlySelfThatDefines i => e.filter_only_self_that_defines i

/-- The spec's notion of alpha-equivalence (section 3): two predicates
are implication-equivalent up to bound-variable renaming when they
differ only in the naming of their bound variables — same body, same
number of bound variables. -/
def alphaEquivalentSpec (P1 P2 : Predicate) : Prop :=
  P1.value = P2.value ∧ P1.bound_vars.length = P2.bound_vars.length

instance (P1 P2 : Predicate) : Decidable (alphaEquivalentSpec P1 P2) := by
  unfold alphaEquivalentSpec
  infer_instance

end TraitElaboration

namespace TraitElaboration

theorem anonymize_predicate_def (tcx : TyCtxt) (p : Predicate) :
    anonymize_predicate tcx p = Binder.anonymize p := rfl

theorem anonymize_eq_iff (P1 P2 : Predicate) :
    Binder.anonymize P1 = Binder.anonymize P2 ↔ alphaEquivalentSpec P1 P2 := by
  constructor
  · intro h
    have hv := congrArg (fun b : Predicate => b.value) h
    simp only [Binder.anonymize] at hv
    have hb := congrArg (fun b : Predicate => b.bound_vars.length) h
    simp only [Binder.anonymize, List.length_map, List.length_range] at hb
    exact ⟨hv, hb⟩
  · intro h
    unfold Binder.anonymize
    rw [h.1, h.2]

theorem insert_of_mem {s : PredicateSet} {p : Predicate}
    (h : Binder.anonymize p ∈ s.set) : s.insert p = (false, s) := by
  simp [PredicateSet.insert, anonymize_predicate, h]

theorem insert_of_not_mem {s : PredicateSet} {p : Predicate}
    (h : Binder.anonymize p ∉ s.set) :
    s.insert p = (true, { s with set := Binder.anonymize p :: s.set }) := by
  simp [PredicateSet.insert, anonymize_predicate, h]

theorem keepNewlyInserted_nil {O : Type} (el : Elaboratable O) (v : PredicateSet) :
    keepNewlyInserted el v [] = ([], v) := rfl

theorem keepNewlyInserted_cons_dup {O : Type} (el : Elaboratable O)
    {v : PredicateSet} {o : O} (os : List O)
    (h : Binder.anonymize (el.predicate o) ∈ v.set) :
    keepNewlyInserted el v (o :: os) = keepNewlyInserted el v os := by
  simp [keepNewlyInserted, insert_of_mem h]

theorem keepNewlyInserted_cons_fresh {O : Type} (el : Elaboratable O)
    {v : PredicateSet} {o : O} (os : List O)
    (h : Binder.anonymize (el.predicate o) ∉ v.set) :
    keepNewlyInserted el v (o :: os) =
      (o :: (keepNewlyInserted el
          { v with set := Binder.anonymize (el.predicate o) :: v.set } os).1,
        (keepNewlyInserted el
          { v with set := Binder.anonymize (el.predicate o) :: v.set } os).2) := by
  simp [keepNewlyInserted, insert_of_not_mem h]

theorem keepNewlyInserted_props {O : Type} (el : Elaboratable O) :
    ∀ (obs : List O) (v : PredicateSet),
      (keepNewlyInserted el v obs).2.tcx = v.tcx
      ∧ (∀ k, k ∈ v.set → k ∈ (keepNewlyInserted el v obs).2.set)
      ∧ ((keepNewlyInserted el v obs).1.map (keyOf el)).Nodup
      ∧ (∀ o ∈ (keepNewlyInserted el v obs).1, keyOf el o ∉ v.set)
      ∧ (∀ o ∈ (keepNewlyInserted el v obs).1,
          keyOf el o ∈ (keepNewlyInserted el v obs).2.set)
      ∧ (∀ k ∈ (keepNewlyInserted el v obs).2.set,
          k ∈ v.set ∨ k ∈ (keepNewlyInserted el v obs).1.map (keyOf el)) := by
  intro obs
  induction obs with
  | nil =>
    intro v
    simp [keepNewlyInserted_nil]
  | cons o os ih =>
    intro v
    by_cases hmem : Binder.anonymize (el.predicate o) ∈ v.set
    · rw [keepNewlyInserted_cons_dup el os hmem]
      obtain ⟨h1, h2, h3, h4, h5, h6⟩ := ih v
      exact ⟨h1, h2, h3, h4, h5, h6⟩
    · rw [keepNewlyInserted_cons_fresh el os hmem]
      obtain ⟨h1, h2, h3, h4, h5, h6⟩ :=
        ih { v with set := Binder.anonymize (el.predicate o) :: v.set }
      refine ⟨h1, ?_, ?_, ?_, ?_, ?_⟩
      · intro k hk
        exact h2 k (List.mem_cons_of_mem _ hk)
      · refine List.nodup_cons.mpr ⟨?_, h3⟩
        intro hcon
        obtain ⟨o1, ho1, hko1⟩ := List.mem_map.mp hcon
        have := h4 o1 ho1
        rw [hko1] at this
        exact this (List.mem_cons_self _ _)
      · intro o1 ho1
        rcases List.mem_cons.mp ho1 with h | h
        · subst h
          exact hmem
        · intro hin
          exact h4 o1 h (List.mem_cons_of_mem _ hin)
      · intro o1 ho1
        rcases List.mem_cons.mp ho1 with h | h
        · subst h
          exact h2 _ (List.mem_cons_self _ _)
        · exact h5 o1 h
      · intro k hk
        rcases h6 k hk with h | h
        · rcases List.mem_cons.mp h with h' | h'
          · right
            rw [h']
            exact List.mem_map.mpr ⟨o, List.mem_cons_self _ _, rfl⟩
          · left
            exact h'
        · right
          rw [List.map_cons]
          exact List.mem_cons_of_mem _ h

theorem extend_deduped_def {O : Type} (el : Elaboratable O)
    (e : Elaborator O) (obs : List O) :
    Elaborator.extend_deduped el e obs =
      { e with stack := (keepNewlyInserted el e.visited obs).1.reverse ++ e.stack,
               visited := (keepNewlyInserted el e.visited obs).2 } := rfl

theorem next_nil {O : Type} (el : Elaboratable O) {e : Elaborator O}
    (h : e.stack = []) : Elaborator.next el e = none := by
  unfold Elaborator.next
  rw [h]

theorem next_cons {O : Type} (el : Elaboratable O) {e : Elaborator O} {o : O}
    {rest : List O} (h : e.stack = o :: rest) :
    Elaborator.next el e =
      some (o, Elaborator.elaborate el { e with stack := rest } o) := by
  unfold Elaborator.next
  rw [h]

theorem runOutputs_zero {O : Type} (el : Elaboratable O) (e : Elaborator O) :
    runOutputs el 0 e = ([], e) := rfl

theorem runOutputs_succ_none {O : Type} (el : Elaboratable O) {e : Elaborator O}
    (n : Nat) (h : Elaborator.next el e = none) :
    runOutputs el (n + 1) e = ([], e) := by
  simp [runOutputs, h]

theorem runOutputs_succ_some {O : Type} (el : Elaboratable O) {e : Elaborator O}
    {o : O} {e1 : Elaborator O} (n : Nat)
    (h : Elaborator.next el e = some (o, e1)) :
    runOutputs el (n + 1) e =
      (o :: (runOutputs el n e1).1, (runOutputs el n e1).2) := by
  simp [runOutputs, h]

end TraitElaboration

namespace TraitElaboration

theorem elaborate_cons {O : Type} (el : Elaboratable O) (s : List O)
    (v : PredicateSet) (m : ElabFilterMode) (o : O) :
    Elaborator.next el ⟨o :: s, v, m⟩ =
      some (o,
        ⟨(keepNewlyInserted el v (childObligations el v.tcx m o)).1.reverse ++ s,
          (keepNewlyInserted el v (childObligations el v.tcx m o)).2, m⟩) := rfl

theorem next_nil_mk {O : Type} (el : Elaboratable O) (v : PredicateSet)
    (m : ElabFilterMode) : Elaborator.next el (⟨[], v, m⟩ : Elaborator O) = none := rfl

theorem elaborate_eq {O : Type} (el : Elaboratable O) (tcx : TyCtxt) (obs : List O) :
    elaborate el tcx obs =
      ⟨(keepNewlyInserted el (PredicateSet.new tcx) obs).1.reverse,
        (keepNewlyInserted el (PredicateSet.new tcx) obs).2, ElabFilterMode.all⟩ := by
  simp [elaborate, Elaborator.extend_deduped]

theorem applyMode_mk {O : Type} (s : List O) (v : PredicateSet)
    (m : ElabFilterMode) :
    applyMode (⟨s, v, ElabFilterMode.all⟩ : Elaborator O) m = ⟨s, v, m⟩ := by
  cases m <;> rfl

theorem runOutputs_invariant {O : Type} (el : Elaboratable O) :
    ∀ (n : Nat) (s : List O) (v : PredicateSet) (m : ElabFilterMode),
      (s.map (keyOf el)).Nodup →
      (∀ o ∈ s, keyOf el o ∈ v.set) →
      ((runOutputs el n ⟨s, v, m⟩).1.map (keyOf el)
          ++ (runOutputs el n ⟨s, v, m⟩).2.stack.map (keyOf el)).Nodup
      ∧ (∀ k, k ∈ v.set → k ∈ (runOutputs el n ⟨s, v, m⟩).2.visited.set)
      ∧ (∀ o1, (o1 ∈ (runOutputs el n ⟨s, v, m⟩).1 ∨
            o1 ∈ (runOutputs el n ⟨s, v, m⟩).2.stack) →
          (keyOf el o1 ∈ s.map (keyOf el) ∨ keyOf el o1 ∉ v.set))
      ∧ (∀ o1 ∈ (runOutputs el n ⟨s, v, m⟩).2.stack,
          keyOf el o1 ∈ (runOutputs el n ⟨s, v, m⟩).2.visited.set) := by
  intro n
  induction n with
  | zero =>
    intro s v m hnd hsub
    rw [runOutputs_zero]
    refine ⟨by simpa using hnd, fun k hk => hk, ?_, hsub⟩
    intro o1 h
    rcases h with h | h
    · simp at h
    · exact Or.inl (List.mem_map.mpr ⟨o1, h, rfl⟩)
  | succ n ih =>
    intro s v m hnd hsub
    rcases s with _ | ⟨o, rest⟩
    · rw [runOutputs_succ_none el n (next_nil_mk el v m)]
      refine ⟨by simp, fun k hk => hk, ?_, ?_⟩
      · intro o1 h
        rcases h with h | h <;> simp at h
      · intro o1 h
        simp at h
    · rw [runOutputs_succ_some el n (elaborate_cons el rest v m o)]
      obtain ⟨hK1, hK2, hK3, hK4, hK5, hK6⟩ :=
        keepNewlyInserted_props el (childObligations el v.tcx m o) v
      rw [List.map_cons, List.nodup_cons] at hnd
      obtain ⟨honotin, hndr⟩ := hnd
      have hov : keyOf el o ∈ v.set := hsub o (List.mem_cons_self _ _)
      have hrests : ∀ o1 ∈ rest, keyOf el o1 ∈ v.set :=
        fun o1 h1 => hsub o1 (List.mem_cons_of_mem _ h1)
      have hstacknd :
          (((keepNewlyInserted el v (childObligations el v.tcx m o)).1.reverse
              ++ rest).map (keyOf el)).Nodup := by
        rw [List.map_append, List.nodup_append]
        refine ⟨?_, hndr, ?_⟩
        · rw [List.map_reverse]
          exact List.nodup_reverse.mpr hK3
        · intro k hk1 hk2
          rw [List.map_reverse, List.mem_reverse] at hk1
          obtain ⟨o1, ho1, rfl⟩ := List.mem_map.mp hk1
          obtain ⟨o2, ho2, heq⟩ := List.mem_map.mp hk2
          exact hK4 o1 ho1 (heq ▸ hrests o2 ho2)
      have hstacksub :
          ∀ o1 ∈ (keepNewlyInserted el v (childObligations el v.tcx m o)).1.reverse
              ++ rest,
            keyOf el o1 ∈
              (keepNewlyInserted el v (childObligations el v.tcx m o)).2.set := by
        intro o1 h1
        rcases List.mem_append.mp h1 with h1 | h1
        · exact hK5 o1 (List.mem_reverse.mp h1)
        · exact hK2 _ (hrests o1 h1)
      obtain ⟨A, B, C, D⟩ :=
        ih ((keepNewlyInserted el v (childObligations el v.tcx m o)).1.reverse ++ rest)
          (keepNewlyInserted el v (childObligations el v.tcx m o)).2 m hstacknd hstacksub
      have hkeyne : ∀ o1,
          (o1 ∈ (runOutputs el n
              ⟨(keepNewlyInserted el v (childObligations el v.tcx m o)).1.reverse ++ rest,
                (keepNewlyInserted el v (childObligations el v.tcx m o)).2, m⟩).1 ∨
            o1 ∈ (runOutputs el n
              ⟨(keepNewlyInserted el v (childObligations el v.tcx m o)).1.reverse ++ rest,
                (keepNewlyInserted el v (childObligations el v.tcx m o)).2, m⟩).2.stack) →
          keyOf el o1 ≠ keyOf el o := by
        intro o1 hmem1 heq
        rcases C o1 hmem1 with hC | hC
        · rw [List.map_append] at hC
          rcases List.mem_append.mp hC with h2 | h2
          · rw [List.map_reverse, List.mem_reverse] at h2
            obtain ⟨o2, ho2, heq2⟩ := List.mem_map.mp h2
            exact hK4 o2 ho2 (by rw [heq2, heq]; exact hov)
          · rw [heq] at h2
            exact honotin h2
        · exact hC (by rw [heq]; exact hK2 _ hov)
      refine ⟨?_, ?_, ?_, D⟩
      · rw [List.map_cons, List.cons_append, List.nodup_cons]
        refine ⟨?_, A⟩
        intro hcon
        rcases List.mem_append.mp hcon with hcon | hcon
        · obtain ⟨o1, ho1, heq⟩ := List.mem_map.mp hcon
          exact hkeyne o1 (Or.inl ho1) heq
        · obtain ⟨o1, ho1, heq⟩ := List.mem_map.mp hcon
          exact hkeyne o1 (Or.inr ho1) heq
      · intro k hk
        exact B k (hK2 k hk)
      · intro o1 hmem1
        rcases hmem1 with hmem1 | hmem1
        · rcases List.mem_cons.mp hmem1 with h1 | h1
          · subst h1
            exact Or.inl (by rw [List.map_cons]; exact List.mem_cons_self _ _)
          · rcases C o1 (Or.inl h1) with hC | hC
            · rw [List.map_append] at hC
              rcases List.mem_append.mp hC with h2 | h2
              · rw [List.map_reverse, List.mem_reverse] at h2
                obtain ⟨o2, ho2, heq2⟩ := List.mem_map.mp h2
                right
                rw [← heq2]
                exact hK4 o2 ho2
              · left
                rw [List.map_cons]
                exact List.mem_cons_of_mem _ h2
            · right
              intro hin
              exact hC (hK2 _ hin)
        · rcases C o1 (Or.inr hmem1) with hC | hC
          · rw [List.map_append] at hC
            rcases List.mem_append.mp hC with h2 | h2
            · rw [List.map_reverse, List.mem_reverse] at h2
              obtain ⟨o2, ho2, heq2⟩ := List.mem_map.mp h2
              right
              rw [← heq2]
              exact hK4 o2 ho2
            · left
              rw [List.map_cons]
              exact List.mem_cons_of_mem _ h2
          · right
            intro hin
            exact hC (hK2 _ hin)

end TraitElaboration

namespace TraitElaboration

/-- Termination measure: twice the number of universe keys not yet
visited, plus the stack length.  Every push consumes a fresh universe
key, every pop shortens the stack, so each produced value strictly
decreases the measure. -/
def elabMeasure {O : Type} (U : Finset Predicate) (e : Elaborator O) : Nat :=
  2 * (U \ e.visited.set.toFinset).card + e.stack.length

theorem keepNewlyInserted_card {O : Type} (el : Elaboratable O) (U : Finset Predicate) :
    ∀ (obs : List O) (v : PredicateSet), (∀ o ∈ obs, keyOf el o ∈ U) →
      (U \ (keepNewlyInserted el v obs).2.set.toFinset).card
          + (keepNewlyInserted el v obs).1.length
        ≤ (U \ v.set.toFinset).card := by
  intro obs
  induction obs with
  | nil =>
    intro v h
    simp [keepNewlyInserted_nil]
  | cons o os ih =>
    intro v h
    by_cases hmem : Binder.anonymize (el.predicate o) ∈ v.set
    · rw [keepNewlyInserted_cons_dup el os hmem]
      exact ih v (fun o1 h1 => h o1 (List.mem_cons_of_mem _ h1))
    · rw [keepNewlyInserted_cons_fresh el os hmem]
      have hkey : Binder.anonymize (el.predicate o) ∈ U := h o (List.mem_cons_self _ _)
      have hmemd : Binder.anonymize (el.predicate o) ∈ U \ v.set.toFinset := by
        rw [Finset.mem_sdiff]
        exact ⟨hkey, by rw [List.mem_toFinset]; exact hmem⟩
      have hpos : 1 ≤ (U \ v.set.toFinset).card :=
        Finset.card_pos.mpr ⟨_, hmemd⟩
      have hstep :
          (U \ (({ v with set := Binder.anonymize (el.predicate o) :: v.set }
                : PredicateSet)).set.toFinset).card
            = (U \ v.set.toFinset).card - 1 := by
        show (U \ (Binder.anonymize (el.predicate o) :: v.set).toFinset).card
          = (U \ v.set.toFinset).card - 1
        rw [List.toFinset_cons, Finset.sdiff_insert, Finset.card_erase_of_mem hmemd]
      have hih := ih { v with set := Binder.anonymize (el.predicate o) :: v.set }
        (fun o1 h1 => h o1 (List.mem_cons_of_mem _ h1))
      simp only [List.length_cons]
      omega

theorem stepOnce_nil_mk {O : Type} (el : Elaboratable O) (v : PredicateSet)
    (m : ElabFilterMode) : stepOnce el (⟨[], v, m⟩ : Elaborator O) = ⟨[], v, m⟩ := rfl

theorem iterSteps_nil_mk {O : Type} (el : Elaboratable O) (v : PredicateSet)
    (m : ElabFilterMode) :
    ∀ n : Nat, iterSteps el n (⟨[], v, m⟩ : Elaborator O) = ⟨[], v, m⟩ := by
  intro n
  induction n with
  | zero => rfl
  | succ n ih =>
    show iterSteps el n (stepOnce el (⟨[], v, m⟩ : Elaborator O)) = _
    rw [stepOnce_nil_mk]
    exact ih

theorem stepOnce_cons {O : Type} (el : Elaboratable O) (o : O) (s : List O)
    (v : PredicateSet) (m : ElabFilterMode) :
    stepOnce el (⟨o :: s, v, m⟩ : Elaborator O) =
      ⟨(keepNewlyInserted el v (childObligations el v.tcx m o)).1.reverse ++ s,
        (keepNewlyInserted el v (childObligations el v.tcx m o)).2, m⟩ := by
  simp [stepOnce, elaborate_cons]

theorem stepOnce_measure {O : Type} (el : Elaboratable O) (U : Finset Predicate)
    (o : O) (s : List O) (v : PredicateSet) (m : ElabFilterMode)
    (hcl : ∀ c ∈ childObligations el v.tcx m o, keyOf el c ∈ U) :
    elabMeasure U (stepOnce el (⟨o :: s, v, m⟩ : Elaborator O)) <
      elabMeasure U (⟨o :: s, v, m⟩ : Elaborator O) := by
  rw [stepOnce_cons]
  unfold elabMeasure
  simp only [List.length_append, List.length_reverse, List.length_cons]
  have hc := keepNewlyInserted_card el U (childObligations el v.tcx m o) v hcl
  omega

theorem exhausts_of_measure {O : Type} (el : Elaboratable O) (U : Finset Predicate)
    (tcx : TyCtxt) (m : ElabFilterMode)
    (hcl : ∀ (o c : O), c ∈ childObligations el tcx m o → keyOf el c ∈ U) :
    ∀ (k : Nat) (s : List O) (v : PredicateSet), v.tcx = tcx →
      elabMeasure U (⟨s, v, m⟩ : Elaborator O) ≤ k →
      ∃ N : Nat, ∀ n : Nat, N ≤ n →
        Elaborator.next el (iterSteps el n (⟨s, v, m⟩ : Elaborator O)) = none := by
  intro k
  induction k with
  | zero =>
    intro s v htcx hk
    have hlen : s.length = 0 := by
      simp only [elabMeasure] at hk
      omega
    have hs : s = [] := List.length_eq_zero.mp hlen
    subst hs
    refine ⟨0, fun n _ => ?_⟩
    rw [iterSteps_nil_mk]
    exact next_nil_mk el v m
  | succ k ih =>
    intro s v htcx hk
    cases s with
    | nil =>
      refine ⟨0, fun n _ => ?_⟩
      rw [iterSteps_nil_mk]
      exact next_nil_mk el v m
    | cons o rest =>
      have hcl' : ∀ c ∈ childObligations el v.tcx m o, keyOf el c ∈ U := by
        rw [htcx]
        exact hcl o
      have hlt := stepOnce_measure el U o rest v m hcl'
      rw [stepOnce_cons] at hlt
      have htcx1 : ((keepNewlyInserted el v (childObligations el v.tcx m o)).2).tcx = tcx := by
        rw [(keepNewlyInserted_props el (childObligations el v.tcx m o) v).1, htcx]
      have hk1 : elabMeasure U
          (⟨(keepNewlyInserted el v (childObligations el v.tcx m o)).1.reverse ++ rest,
            (keepNewlyInserted el v (childObligations el v.tcx m o)).2, m⟩ : Elaborator O) ≤ k := by
        omega
      obtain ⟨N, hN⟩ := ih
        ((keepNewlyInserted el v (childObligations el v.tcx m o)).1.reverse ++ rest)
        (keepNewlyInserted el v (childObligations el v.tcx m o)).2 htcx1 hk1
      refine ⟨N + 1, ?_⟩
      intro n hn
      cases n with
      | zero => omega
      | succ n1 =>
        show Elaborator.next el
          (iterSteps el n1 (stepOnce el (⟨o :: rest, v, m⟩ : Elaborator O))) = none
        rw [stepOnce_cons]
        exact hN n1 (by omega)

end TraitElaboration

namespace TraitElaboration

theorem keyOf_def {O : Type} (el : Elaboratable O) (o : O) :
    keyOf el o = Binder.anonymize (el.predicate o) := rfl

theorem keepNewlyInserted_all_fresh {O : Type} (el : Elaboratable O) :
    ∀ (obs : List O) (v : PredicateSet),
      (obs.map (keyOf el)).Nodup →
      (∀ o ∈ obs, keyOf el o ∉ v.set) →
      keepNewlyInserted el v obs =
        (obs, ⟨v.tcx, (obs.map (keyOf el)).reverse ++ v.set⟩) := by
  intro obs
  induction obs with
  | nil =>
    intro v _ _
    rw [keepNewlyInserted_nil]
    simp
  | cons o os ih =>
    intro v hnd hfresh
    rw [keepNewlyInserted_cons_fresh el os (hfresh o (List.mem_cons_self _ _))]
    rw [List.map_cons, List.nodup_cons] at hnd
    obtain ⟨hhead, htail⟩ := hnd
    have hfresh1 : ∀ o1 ∈ os, keyOf el o1 ∉ (keyOf el o :: v.set) := by
      intro o1 h1 hmem
      rcases List.mem_cons.mp hmem with h2 | h2
      · exact hhead (h2 ▸ List.mem_map.mpr ⟨o1, h1, rfl⟩)
      · exact hfresh o1 (List.mem_cons_of_mem _ h1) h2
    rw [ih { v with set := Binder.anonymize (el.predicate o) :: v.set } htail hfresh1]
    simp [keyOf, List.reverse_cons, List.append_assoc]

theorem runOutputs_leaves {O : Type} (el : Elaboratable O) :
    ∀ (s : List O) (v : PredicateSet) (m : ElabFilterMode),
      (∀ o ∈ s, childObligations el v.tcx m o = []) →
      runOutputs el s.length (⟨s, v, m⟩ : Elaborator O) = (s, ⟨[], v, m⟩) := by
  intro s
  induction s with
  | nil =>
    intro v m _
    rfl
  | cons o rest ih =>
    intro v m hleaf
    rw [List.length_cons,
      runOutputs_succ_some el rest.length (elaborate_cons el rest v m o)]
    rw [hleaf o (List.mem_cons_self _ _), keepNewlyInserted_nil]
    simp only [List.reverse_nil, List.nil_append]
    rw [ih v m (fun o1 h1 => hleaf o1 (List.mem_cons_of_mem _ h1))]

end TraitElaboration

namespace TraitElaboration

theorem runOutputs_avoid {O : Type} (el : Elaboratable O) (n : Nat) (s : List O)
    (v : PredicateSet) (m : ElabFilterMode) (k : Predicate)
    (hnd : (s.map (keyOf el)).Nodup)
    (hsub : ∀ o ∈ s, keyOf el o ∈ v.set)
    (hks : k ∉ s.map (keyOf el)) (hkv : k ∈ v.set) :
    ∀ q ∈ (runOutputs el n (⟨s, v, m⟩ : Elaborator O)).1, keyOf el q ≠ k := by
  intro q hq heq
  obtain ⟨A, B, C, D⟩ := runOutputs_invariant el n s v m hnd hsub
  rcases C q (Or.inl hq) with hC | hC
  · exact hks (heq ▸ hC)
  · exact hC (heq ▸ hkv)

/-- A trivial collaborator environment for concrete witnesses: no
declared implications and no structural components. -/
def tcxEmpty : TyCtxt :=
  { explicit_implied_predicates_of := fun _ => []
  , explicit_super_predicates_of := fun _ => []
  , explicit_supertraits_containing_assoc_item := fun _ _ => []
  , instantiate_supertrait := fun c _ => c
  , push_outlives_components := fun _ => [] }

/-- C9: PredicateSet.insert returns true exactly when the canonical key
of the predicate is absent; on a present key it returns false and leaves
the set unmodified; inserting a predicate and then any predicate with
the same canonical key returns true then false. -/
theorem predicate_set_insert_spec (s : PredicateSet) (p : Predicate) :
    ((s.insert p).1 = true ↔ anonymize_predicate s.tcx p ∉ s.set)
    ∧ ((s.insert p).1 = false ↔ anonymize_predicate s.tcx p ∈ s.set)
    ∧ (anonymize_predicate s.tcx p ∈ s.set → (s.insert p).2 = s)
    ∧ (∀ q : Predicate,
        anonymize_predicate s.tcx q = anonymize_predicate s.tcx p →
        ((s.insert p).2.insert q).1 = false) := by
  simp only [anonymize_predicate_def]
  by_cases hmem : Binder.anonymize p ∈ s.set
  · rw [insert_of_mem hmem]
    refine ⟨by simp [hmem], by simp [hmem], fun _ => rfl, ?_⟩
    intro q hq
    have : Binder.anonymize q ∈ s.set := by rw [hq]; exact hmem
    rw [insert_of_mem this]
  · rw [insert_of_not_mem hmem]
    refine ⟨by simp [hmem], by simp [hmem], fun h => absurd h hmem, ?_⟩
    intro q hq
    have : Binder.anonymize q ∈
        ({ s with set := Binder.anonymize p :: s.set } : PredicateSet).set := by
      rw [hq]
      exact List.mem_cons_self _ _
    rw [insert_of_mem this]

def p9 : Predicate :=
  ⟨[BoundVarKind.named "a"],
    PredicateKind.clause (ClauseKind.traitClause ⟨⟨3, []⟩, Polarity.positive⟩)⟩

def q9 : Predicate :=
  ⟨[BoundVarKind.named "b"],
    PredicateKind.clause (ClauseKind.traitClause ⟨⟨3, []⟩, Polarity.positive⟩)⟩

theorem predicate_set_insert_spec_witness :
    ((PredicateSet.new tcxEmpty).insert p9).1 = true
    ∧ (((PredicateSet.new tcxEmpty).insert p9).2.insert q9).1 = false := by
  have h := predicate_set_insert_spec (PredicateSet.new tcxEmpty) p9
  exact ⟨h.1.mpr (by decide), h.2.2.2 q9 (by decide)⟩

/-- C2: the canonical key computed by anonymization identifies
predicates exactly up to bound-variable renaming, and seeding an
Elaborator with two alpha-equivalent predicates yields exactly one
occurrence of their key class in the output sequence. -/
theorem canonical_key_alpha_invariance :
    (∀ (tcx : TyCtxt) (P : Predicate),
      anonymize_predicate tcx P = Binder.anonymize P)
    ∧ (∀ P1 P2 : Predicate,
        Binder.anonymize P1 = Binder.anonymize P2 ↔ alphaEquivalentSpec P1 P2)
    ∧ (∀ (tcx : TyCtxt) (P1 P2 : Predicate) (n : Nat),
        alphaEquivalentSpec P1 P2 →
        ((runOutputs elabPredicate (n + 1)
            (elaborate elabPredicate tcx [P1, P2])).1.countP
          (fun q => decide (Binder.anonymize q = Binder.anonymize P1))) = 1) := by
  refine ⟨fun _ _ => rfl, anonymize_eq_iff, ?_⟩
  intro tcx P1 P2 n halpha
  have hkey : Binder.anonymize P2 = Binder.anonymize P1 :=
    (anonymize_eq_iff P2 P1).mpr ⟨halpha.1.symm, halpha.2.symm⟩
  have hseeds : keepNewlyInserted elabPredicate (PredicateSet.new tcx) [P1, P2]
      = ([P1], ⟨tcx, [Binder.anonymize P1]⟩) := by
    rw [keepNewlyInserted_cons_fresh elabPredicate [P2] (by simp [PredicateSet.new])]
    rw [keepNewlyInserted_cons_dup elabPredicate []
      (by show Binder.anonymize P2 ∈ _; simp [PredicateSet.new, hkey, elabPredicate])]
    rw [keepNewlyInserted_nil]
    simp [elabPredicate, PredicateSet.new]
  rw [elaborate_eq, hseeds]
  simp only [List.reverse_cons, List.reverse_nil, List.nil_append]
  rw [runOutputs_succ_some elabPredicate n
    (elaborate_cons elabPredicate [] ⟨tcx, [Binder.anonymize P1]⟩ ElabFilterMode.all P1)]
  simp only [List.append_nil]
  obtain ⟨hK1, hK2, hK3, hK4, hK5, hK6⟩ :=
    keepNewlyInserted_props elabPredicate
      (childObligations elabPredicate
        (⟨tcx, [Binder.anonymize P1]⟩ : PredicateSet).tcx ElabFilterMode.all P1)
      ⟨tcx, [Binder.anonymize P1]⟩
  have havoid := runOutputs_avoid elabPredicate n
    (keepNewlyInserted elabPredicate ⟨tcx, [Binder.anonymize P1]⟩
      (childObligations elabPredicate
        (⟨tcx, [Binder.anonymize P1]⟩ : PredicateSet).tcx ElabFilterMode.all P1)).1.reverse
    (keepNewlyInserted elabPredicate ⟨tcx, [Binder.anonymize P1]⟩
      (childObligations elabPredicate
        (⟨tcx, [Binder.anonymize P1]⟩ : PredicateSet).tcx ElabFilterMode.all P1)).2
    ElabFilterMode.all (Binder.anonymize P1)
    (by rw [List.map_reverse]; exact List.nodup_reverse.mpr hK3)
    (fun o ho => hK5 o (List.mem_reverse.mp ho))
    (by
      intro hin
      rw [List.map_reverse, List.mem_reverse] at hin
      obtain ⟨o2, ho2, heq2⟩ := List.mem_map.mp hin
      exact hK4 o2 ho2 (by rw [heq2]; exact List.mem_cons_self _ _))
    (hK2 _ (List.mem_cons_self _ _))
  rw [List.countP_cons]
  have hzero : (runOutputs elabPredicate n
      (⟨(keepNewlyInserted elabPredicate ⟨tcx, [Binder.anonymize P1]⟩
          (childObligations elabPredicate
            (⟨tcx, [Binder.anonymize P1]⟩ : PredicateSet).tcx ElabFilterMode.all P1)).1.reverse,
        (keepNewlyInserted elabPredicate ⟨tcx, [Binder.anonymize P1]⟩
          (childObligations elabPredicate
            (⟨tcx, [Binder.anonymize P1]⟩ : PredicateSet).tcx ElabFilterMode.all P1)).2,
        ElabFilterMode.all⟩ : Elaborator Predicate)).1.countP
      (fun q => decide (Binder.anonymize q = Binder.anonymize P1)) = 0 := by
    rw [List.countP_eq_zero]
    intro q hq
    simp only [decide_eq_true_eq]
    exact havoid q hq
  rw [hzero]
  simp

end TraitElaboration

namespace TraitElaboration

def p2a : Predicate :=
  ⟨[BoundVarKind.named "a"],
    PredicateKind.clause (ClauseKind.traitClause ⟨⟨30, []⟩, Polarity.positive⟩)⟩

def p2b : Predicate :=
  ⟨[BoundVarKind.named "b"],
    PredicateKind.clause (ClauseKind.traitClause ⟨⟨30, []⟩, Polarity.positive⟩)⟩

theorem canonical_key_alpha_invariance_witness :
    ((runOutputs elabPredicate 1 (elaborate elabPredicate tcxEmpty [p2a, p2b])).1.countP
      (fun q => decide (Binder.anonymize q = Binder.anonymize p2a))) = 1 :=
  canonical_key_alpha_invariance.2.2 tcxEmpty p2a p2b 0 (by decide)

theorem elaborate_no_children {O : Type} (el : Elaboratable O) (e : Elaborator O)
    (o : O) (h : childObligations el e.visited.tcx e.mode o = []) :
    Elaborator.elaborate el e o = e := by
  unfold Elaborator.elaborate
  rw [h]
  simp [Elaborator.extend_deduped, keepNewlyInserted_nil]

/-- C8: elaborating a capability bound whose polarity is not positive
schedules no implications: the child list is empty and the elaboration
step leaves the Elaborator unchanged, for every representation, mode and
environment. -/
theorem negative_polarity_no_implications {O : Type} (el : Elaboratable O)
    (tcx : TyCtxt) (m : ElabFilterMode) (o : O) (bv : List BoundVarKind)
    (data : TraitPredicate)
    (hp : el.predicate o = ⟨bv, PredicateKind.clause (ClauseKind.traitClause data)⟩)
    (hneg : data.polarity ≠ Polarity.positive) :
    childObligations el tcx m o = []
    ∧ ∀ e : Elaborator O, Elaborator.elaborate el e o = e := by
  have hch : ∀ (tcx1 : TyCtxt) (m1 : ElabFilterMode),
      childObligations el tcx1 m1 o = [] := by
    intro tcx1 m1
    unfold childObligations
    rw [hp]
    simp [Predicate.as_clause, Binder.skip_binder, hneg]
  exact ⟨hch tcx m, fun e => elaborate_no_children el e o (hch _ _)⟩

def p8 : Predicate :=
  ⟨[], PredicateKind.clause (ClauseKind.traitClause ⟨⟨4, []⟩, Polarity.negative⟩)⟩

theorem negative_polarity_no_implications_witness :
    childObligations elabPredicate tcxEmpty ElabFilterMode.all p8 = []
    ∧ Elaborator.elaborate elabPredicate (elaborate elabPredicate tcxEmpty [p8]) p8
        = elaborate elabPredicate tcxEmpty [p8] := by
  have h := negative_polarity_no_implications elabPredicate tcxEmpty
    ElabFilterMode.all p8 [] ⟨⟨4, []⟩, Polarity.negative⟩ rfl (by decide)
  exact ⟨h.1, h.2 _⟩

/-- C6: a type-outlives bound whose target region is bound produces no
derived constraints at all; otherwise exactly one derived constraint is
emitted per kept structural component — a non-bound contained region
gives a region-outlives constraint, a bound contained region is
dropped, a parameter, a placeholder and a non-escaping alias give
type-outlives constraints, and inference-variable and escaping-alias
components are dropped — each emitted via child, which extends no
causal chain. -/
theorem type_outlives_decomposition {O : Type} (el : Elaboratable O)
    (tcx : TyCtxt) (m : ElabFilterMode) (o : O) (bv : List BoundVarKind)
    (ty : Ty) (r : Region)
    (hp : el.predicate o = ⟨bv, PredicateKind.clause (ClauseKind.typeOutlives ty r)⟩) :
    (r.is_bound = true →
      childObligations el tcx m o = []
      ∧ ∀ e : Elaborator O, Elaborator.elaborate el e o = e)
    ∧ (r.is_bound = false →
      childObligations el tcx m o =
        ((tcx.push_outlives_components ty).filterMap
            (outlivesComponentToClause r)).map
          (fun ck => el.child o ⟨bv, ck⟩))
    ∧ (∀ rr : Region, rr.is_bound = false →
        outlivesComponentToClause r (Component.region rr)
          = some (ClauseKind.regionOutlives rr r))
    ∧ (∀ rr : Region, rr.is_bound = true →
        outlivesComponentToClause r (Component.region rr) = none)
    ∧ (∀ p : ParamTy, outlivesComponentToClause r (Component.param p)
        = some (ClauseKind.typeOutlives (Ty.param p.index p.name) r))
    ∧ (∀ pl : Nat, outlivesComponentToClause r (Component.placeholder pl)
        = some (ClauseKind.typeOutlives (Ty.placeholder pl) r))
    ∧ (∀ a : AliasTy, outlivesComponentToClause r (Component.aliasComp a)
        = some (ClauseKind.typeOutlives a.to_ty r))
    ∧ (∀ i : Nat,
        outlivesComponentToClause r (Component.unresolvedInferenceVariable i) = none)
    ∧ (∀ i : Nat, outlivesComponentToClause r (Component.escapingAlias i) = none)
    ∧ (∀ (ob : PredicateObligation) (c : Clause),
        (elabObligation.child ob c).cause = ob.cause
        ∧ (elabObligation.child ob c).recursion_depth = 0) := by
  have hch : ∀ (tcx1 : TyCtxt) (m1 : ElabFilterMode),
      childObligations el tcx1 m1 o =
        if r.is_bound then []
        else ((tcx1.push_outlives_components ty).filterMap
            (outlivesComponentToClause r)).map
          (fun ck => el.child o ⟨bv, ck⟩) := by
    intro tcx1 m1
    unfold childObligations
    rw [hp]
    simp [Predicate.as_clause, Binder.skip_binder, Binder.rebind]
  refine ⟨?_, ?_, ?_, ?_, fun p => rfl, fun pl => rfl, fun a => rfl,
    fun i => rfl, fun i => rfl, fun ob c => ⟨rfl, rfl⟩⟩
  · intro hb
    have hch0 : ∀ (tcx1 : TyCtxt) (m1 : ElabFilterMode),
        childObligations el tcx1 m1 o = [] := by
      intro tcx1 m1
      rw [hch tcx1 m1, hb]
      rfl
    exact ⟨hch0 tcx m, fun e => elaborate_no_children el e o (hch0 _ _)⟩
  · intro hb
    rw [hch tcx m, hb]
    rfl
  · intro rr hrr
    simp [outlivesComponentToClause, hrr]
  · intro rr hrr
    simp [outlivesComponentToClause, hrr]

def tcxC6 : TyCtxt :=
  { tcxEmpty with push_outlives_components := fun t =>
      if t = Ty.other 100 then [Component.param ⟨0, "U"⟩] else [] }

def p6 : Predicate :=
  ⟨[], PredicateKind.clause (ClauseKind.typeOutlives (Ty.other 100) (Region.named 0))⟩

def p6b : Predicate :=
  ⟨[BoundVarKind.named "b"],
    PredicateKind.clause (ClauseKind.typeOutlives (Ty.other 100) (Region.bound 0))⟩

theorem type_outlives_decomposition_witness :
    childObligations elabPredicate tcxC6 ElabFilterMode.all p6
      = [⟨[], PredicateKind.clause
          (ClauseKind.typeOutlives (Ty.param 0 "U") (Region.named 0))⟩]
    ∧ childObligations elabPredicate tcxC6 ElabFilterMode.all p6b = [] := by
  have h1 := type_outlives_decomposition elabPredicate tcxC6 ElabFilterMode.all p6 []
    (Ty.other 100) (Region.named 0) rfl
  have h2 := type_outlives_decomposition elabPredicate tcxC6 ElabFilterMode.all p6b
    [BoundVarKind.named "b"] (Ty.other 100) (Region.bound 0) rfl
  refine ⟨?_, (h2.1 rfl).1⟩
  rw [h1.2.1 rfl]
  decide

end TraitElaboration

namespace TraitElaboration

def cs5 : Clause := ⟨[], ClauseKind.traitClause ⟨⟨21, []⟩, Polarity.positive⟩⟩

def ct5 : Clause := ⟨[], ClauseKind.typeOutlives (Ty.other 7) Region.staticRegion⟩

def tcxC5 : TyCtxt :=
  { explicit_implied_predicates_of := fun d => if d = 20 then [(cs5, 0), (ct5, 1)] else []
  , explicit_super_predicates_of := fun d => if d = 20 then [(cs5, 0)] else []
  , explicit_supertraits_containing_assoc_item := fun _ _ => []
  , instantiate_supertrait := fun c _ => c
  , push_outlives_components := fun _ => [] }

def seed5 : Predicate :=
  ⟨[], PredicateKind.clause (ClauseKind.traitClause ⟨⟨20, []⟩, Polarity.positive⟩)⟩

/-- C5: for a positive capability bound, the scheduled implications are
selected by the active mode — All maps over the full implied-predicate
list, OnlySelf over the super-predicate list, OnlySelfThatDefines over
the assoc-item-restricted list, each entry instantiated against the
bound and wrapped with its index — and in the concrete two-implication
scenario (one supertrait-style implication and one other implication)
OnlySelf yields only the supertrait-style one while All yields both. -/
theorem mode_selection {O : Type} (el : Elaboratable O) (tcx : TyCtxt)
    (o : O) (bv : List BoundVarKind) (data : TraitPredicate)
    (hp : el.predicate o = ⟨bv, PredicateKind.clause (ClauseKind.traitClause data)⟩)
    (hpos : data.polarity = Polarity.positive) :
    (childObligations el tcx ElabFilterMode.all o =
      (tcx.explicit_implied_predicates_of data.trait_ref.def_id).enum.map
        (fun x => el.child_with_derived_cause o
          (tcx.instantiate_supertrait x.2.1 ⟨bv, data.trait_ref⟩) x.2.2 ⟨bv, data⟩ x.1))
    ∧ (childObligations el tcx ElabFilterMode.onlySelf o =
      (tcx.explicit_super_predicates_of data.trait_ref.def_id).enum.map
        (fun x => el.child_with_derived_cause o
          (tcx.instantiate_supertrait x.2.1 ⟨bv, data.trait_ref⟩) x.2.2 ⟨bv, data⟩ x.1))
    ∧ (∀ ident : Ident,
      childObligations el tcx (ElabFilterMode.onlySelfThatDefines ident) o =
        (tcx.explicit_supertraits_containing_assoc_item
            data.trait_ref.def_id ident).enum.map
          (fun x => el.child_with_derived_cause o
            (tcx.instantiate_supertrait x.2.1 ⟨bv, data.trait_ref⟩) x.2.2 ⟨bv, data⟩ x.1))
    ∧ ((runOutputs elabPredicate 2
          (applyMode (elaborate elabPredicate tcxC5 [seed5]) ElabFilterMode.onlySelf)).1
        = [seed5, cs5.as_predicate])
    ∧ ((runOutputs elabPredicate 3 (elaborate elabPredicate tcxC5 [seed5])).1
        = [seed5, ct5.as_predicate, cs5.as_predicate]) := by
  have hch : ∀ m : ElabFilterMode,
      childObligations el tcx m o =
        (match m with
          | ElabFilterMode.all => tcx.explicit_implied_predicates_of data.trait_ref.def_id
          | ElabFilterMode.onlySelf =>
              tcx.explicit_super_predicates_of data.trait_ref.def_id
          | ElabFilterMode.onlySelfThatDefines ident =>
              tcx.explicit_supertraits_containing_assoc_item
                data.trait_ref.def_id ident).enum.map
          (fun (x : Nat × (Clause × Span)) => el.child_with_derived_cause o
            (tcx.instantiate_supertrait x.2.1 ⟨bv, data.trait_ref⟩) x.2.2 ⟨bv, data⟩ x.1) := by
    intro m
    unfold childObligations
    rw [hp]
    simp [Predicate.as_clause, Binder.skip_binder, Binder.rebind, hpos]
  exact ⟨hch ElabFilterMode.all, hch ElabFilterMode.onlySelf,
    fun ident => hch (ElabFilterMode.onlySelfThatDefines ident),
    by decide, by decide⟩

theorem mode_selection_witness :
    childObligations elabPredicate tcxC5 ElabFilterMode.onlySelf seed5
      = [cs5.as_predicate]
    ∧ childObligations elabPredicate tcxC5 ElabFilterMode.all seed5
      = [cs5.as_predicate, ct5.as_predicate] := by
  have h := mode_selection elabPredicate tcxC5 seed5 []
    ⟨⟨20, []⟩, Polarity.positive⟩ rfl rfl
  refine ⟨?_, ?_⟩
  · rw [h.2.1]
    decide
  · rw [h.1]
    decide

/-- C7: the trait-reference filter yields exactly the capability
references extracted from the positive-polarity capability-bound
predicates of the underlying sequence, in order; one pull steps through
the remaining sequence; it signals exhaustion exactly when no further
match exists; and its size bounds are zero below and the underlying
upper bound above. -/
theorem filter_to_traits_spec :
    (∀ l : List Predicate, FilterToTraits.run l =
      l.filterMap (fun pred =>
        Option.map (Binder.map_bound TraitPredicate.trait_ref) pred.as_trait_clause))
    ∧ (∀ l : List Predicate, FilterToTraits.run l =
        (match FilterToTraits.next l with
          | none => []
          | some x => x.1 :: FilterToTraits.run x.2))
    ∧ (∀ l : List Predicate, FilterToTraits.next l = none ↔
        l.filterMap (fun pred =>
          Option.map (Binder.map_bound TraitPredicate.trait_ref)
            pred.as_trait_clause) = [])
    ∧ (∀ l : List Predicate,
        FilterToTraits.size_hint l = (0, (listIterSizeHint l).2)
        ∧ (listIterSizeHint l).2 = some l.length) := by
  refine ⟨?_, ?_, ?_, fun l => ⟨rfl, rfl⟩⟩
  · intro l
    induction l with
    | nil => rfl
    | cons p rest ih =>
      cases hp : p.as_trait_clause with
      | none => simp [FilterToTraits.run, List.filterMap_cons, hp, ih]
      | some d => simp [FilterToTraits.run, List.filterMap_cons, hp, ih]
  · intro l
    induction l with
    | nil => rfl
    | cons p rest ih =>
      cases hp : p.as_trait_clause with
      | none => simp [FilterToTraits.run, FilterToTraits.next, hp, ih]
      | some d => simp [FilterToTraits.run, FilterToTraits.next, hp]
  · intro l
    induction l with
    | nil => simp [FilterToTraits.next]
    | cons p rest ih =>
      cases hp : p.as_trait_clause with
      | none => simp [FilterToTraits.next, List.filterMap_cons, hp, ih]
      | some d => simp [FilterToTraits.next, List.filterMap_cons, hp]

end TraitElaboration

namespace TraitElaboration

theorem keyOf_elabPredicate (p : Predicate) :
    keyOf elabPredicate p = Binder.anonymize p := rfl

theorem elabPredicate_predicate (p : Predicate) :
    elabPredicate.predicate p = p := rfl

def c4a : Clause := ⟨[], ClauseKind.traitClause ⟨⟨41, []⟩, Polarity.positive⟩⟩

def c4b : Clause := ⟨[], ClauseKind.traitClause ⟨⟨42, []⟩, Polarity.positive⟩⟩

def tcxC4 : TyCtxt :=
  { tcxEmpty with explicit_implied_predicates_of :=
      fun d => if d = 40 then [(c4a, 0), (c4b, 1)] else [] }

def seed4 : Predicate :=
  ⟨[], PredicateKind.clause (ClauseKind.traitClause ⟨⟨40, []⟩, Polarity.positive⟩)⟩

/-- C4 counterexample: a single seed with two declared implications is
followed by them in reverse declaration order — the run yields
[seed, second, first], not [seed, first, second] as the claim states. -/
theorem single_seed_order_counterexample :
    childObligations elabPredicate tcxC4 ElabFilterMode.all seed4
      = [c4a.as_predicate, c4b.as_predicate]
    ∧ childObligations elabPredicate tcxC4 ElabFilterMode.all c4a.as_predicate = []
    ∧ childObligations elabPredicate tcxC4 ElabFilterMode.all c4b.as_predicate = []
    ∧ (runOutputs elabPredicate 3 (elaborate elabPredicate tcxC4 [seed4])).1
        = [seed4, c4b.as_predicate, c4a.as_predicate]
    ∧ (runOutputs elabPredicate 3 (elaborate elabPredicate tcxC4 [seed4])).1
        ≠ [seed4, c4a.as_predicate, c4b.as_predicate] := by
  exact ⟨by decide, by decide, by decide, by decide, by decide⟩

theorem single_seed_first_step {O : Type} (el : Elaboratable O) (tcx : TyCtxt)
    (seed : O) (m : ElabFilterMode)
    (hnd : ((seed :: childObligations el tcx m seed).map (keyOf el)).Nodup) :
    Elaborator.next el (applyMode (elaborate el tcx [seed]) m)
      = some (seed,
        ⟨(childObligations el tcx m seed).reverse,
          ⟨tcx, ((childObligations el tcx m seed).map (keyOf el)).reverse
              ++ [keyOf el seed]⟩, m⟩) := by
  have hndseed : (([seed] : List O).map (keyOf el)).Nodup := by simp
  have hfresh0 : ∀ o ∈ ([seed] : List O), keyOf el o ∉ (PredicateSet.new tcx).set := by
    intro o _
    simp [PredicateSet.new]
  have hs : applyMode (elaborate el tcx [seed]) m
      = ⟨[seed], ⟨tcx, [keyOf el seed]⟩, m⟩ := by
    rw [elaborate_eq, applyMode_mk,
      keepNewlyInserted_all_fresh el [seed] (PredicateSet.new tcx) hndseed hfresh0]
    simp [PredicateSet.new]
  rw [hs, elaborate_cons]
  rw [List.map_cons, List.nodup_cons] at hnd
  obtain ⟨hseedni, hcsnd⟩ := hnd
  have hfresh1 : ∀ c ∈ childObligations el tcx m seed,
      keyOf el c ∉ (⟨tcx, [keyOf el seed]⟩ : PredicateSet).set := by
    intro c hc hmem
    rcases List.mem_cons.mp hmem with h1 | h1
    · exact hseedni (h1 ▸ List.mem_map.mpr ⟨c, hc, rfl⟩)
    · simp at h1
  have hch2 : childObligations el (⟨tcx, [keyOf el seed]⟩ : PredicateSet).tcx m seed
      = childObligations el tcx m seed := rfl
  rw [hch2, keepNewlyInserted_all_fresh el (childObligations el tcx m seed)
    ⟨tcx, [keyOf el seed]⟩ hcsnd hfresh1]
  simp

theorem runOutputs_segment {O : Type} (el : Elaboratable O) :
    ∀ (n : Nat) (s1 s2 : List O) (v : PredicateSet) (m : ElabFilterMode),
      (runOutputs el n (⟨s1, v, m⟩ : Elaborator O)).2.stack ≠ [] →
      runOutputs el n (⟨s1 ++ s2, v, m⟩ : Elaborator O)
        = ((runOutputs el n (⟨s1, v, m⟩ : Elaborator O)).1,
           ⟨(runOutputs el n (⟨s1, v, m⟩ : Elaborator O)).2.stack ++ s2,
            (runOutputs el n (⟨s1, v, m⟩ : Elaborator O)).2.visited, m⟩) := by
  intro n
  induction n with
  | zero =>
    intro s1 s2 v m hne
    rw [runOutputs_zero, runOutputs_zero]
  | succ n ih =>
    intro s1 s2 v m hne
    cases s1 with
    | nil =>
      rw [runOutputs_succ_none el n (next_nil_mk el v m)] at hne
      simp at hne
    | cons o rest =>
      rw [runOutputs_succ_some el n (elaborate_cons el rest v m o)] at hne ⊢
      rw [List.cons_append,
        runOutputs_succ_some el n (elaborate_cons el (rest ++ s2) v m o),
        ← List.append_assoc]
      rw [ih ((keepNewlyInserted el v (childObligations el v.tcx m o)).1.reverse ++ rest)
        s2 (keepNewlyInserted el v (childObligations el v.tcx m o)).2 m hne]

theorem runOutputs_drain_append {O : Type} (el : Elaboratable O) :
    ∀ (n1 : Nat) (s1 : List O) (n2 : Nat) (s2 : List O) (v : PredicateSet)
      (m : ElabFilterMode),
      (runOutputs el n1 (⟨s1, v, m⟩ : Elaborator O)).1.length = n1 →
      (runOutputs el n1 (⟨s1, v, m⟩ : Elaborator O)).2.stack = [] →
      runOutputs el (n1 + n2) (⟨s1 ++ s2, v, m⟩ : Elaborator O)
        = ((runOutputs el n1 (⟨s1, v, m⟩ : Elaborator O)).1
              ++ (runOutputs el n2 (⟨s2,
                  (runOutputs el n1 (⟨s1, v, m⟩ : Elaborator O)).2.visited, m⟩
                  : Elaborator O)).1,
           (runOutputs el n2 (⟨s2,
              (runOutputs el n1 (⟨s1, v, m⟩ : Elaborator O)).2.visited, m⟩
              : Elaborator O)).2) := by
  intro n1
  induction n1 with
  | zero =>
    intro s1 n2 s2 v m hlen hstack
    rw [runOutputs_zero] at hstack ⊢
    have hs1 : s1 = [] := hstack
    subst hs1
    rw [Nat.zero_add]
    rfl
  | succ n1 ih =>
    intro s1 n2 s2 v m hlen hstack
    cases s1 with
    | nil =>
      rw [runOutputs_succ_none el n1 (next_nil_mk el v m)] at hlen
      simp at hlen
    | cons o rest =>
      rw [runOutputs_succ_some el n1 (elaborate_cons el rest v m o)] at hlen hstack ⊢
      have hlen1 : (runOutputs el n1
          (⟨(keepNewlyInserted el v (childObligations el v.tcx m o)).1.reverse ++ rest,
            (keepNewlyInserted el v (childObligations el v.tcx m o)).2, m⟩
            : Elaborator O)).1.length = n1 := by
        simpa using hlen
      rw [Nat.succ_add, List.cons_append,
        runOutputs_succ_some el (n1 + n2) (elaborate_cons el (rest ++ s2) v m o),
        ← List.append_assoc]
      rw [ih ((keepNewlyInserted el v (childObligations el v.tcx m o)).1.reverse ++ rest)
        n2 s2 (keepNewlyInserted el v (childObligations el v.tcx m o)).2 m hlen1 hstack]
      rfl

/-- C4 (amended): for every single-seed Elaborator — every
representation, environment and mode — with pairwise fresh immediate
implications, the output begins with the seed itself and continues as
the run of the stack holding the immediate implications in reverse
seed-declaration order; the top segment of the stack is always fully
elaborated depth-first before a lower segment is reached (the lower
segment contributes nothing while the top segment's own run is not yet
drained, and once it drains in exactly its productive step count the
run continues as the lower segment's run from the accumulated visited
set); in particular leaf implications are produced exactly in reverse
declaration order after the seed. -/
theorem single_seed_reverse_order {O : Type} (el : Elaboratable O) :
    (∀ (tcx : TyCtxt) (seed : O) (m : ElabFilterMode) (n : Nat),
      ((seed :: childObligations el tcx m seed).map (keyOf el)).Nodup →
      runOutputs el (n + 1) (applyMode (elaborate el tcx [seed]) m)
        = (seed :: (runOutputs el n
              (⟨(childObligations el tcx m seed).reverse,
                ⟨tcx, ((childObligations el tcx m seed).map (keyOf el)).reverse
                    ++ [keyOf el seed]⟩, m⟩ : Elaborator O)).1,
           (runOutputs el n
              (⟨(childObligations el tcx m seed).reverse,
                ⟨tcx, ((childObligations el tcx m seed).map (keyOf el)).reverse
                    ++ [keyOf el seed]⟩, m⟩ : Elaborator O)).2))
    ∧ (∀ (n : Nat) (s1 s2 : List O) (v : PredicateSet) (m : ElabFilterMode),
        (runOutputs el n (⟨s1, v, m⟩ : Elaborator O)).2.stack ≠ [] →
        runOutputs el n (⟨s1 ++ s2, v, m⟩ : Elaborator O)
          = ((runOutputs el n (⟨s1, v, m⟩ : Elaborator O)).1,
             ⟨(runOutputs el n (⟨s1, v, m⟩ : Elaborator O)).2.stack ++ s2,
              (runOutputs el n (⟨s1, v, m⟩ : Elaborator O)).2.visited, m⟩))
    ∧ (∀ (n1 : Nat) (s1 : List O) (n2 : Nat) (s2 : List O) (v : PredicateSet)
        (m : ElabFilterMode),
        (runOutputs el n1 (⟨s1, v, m⟩ : Elaborator O)).1.length = n1 →
        (runOutputs el n1 (⟨s1, v, m⟩ : Elaborator O)).2.stack = [] →
        runOutputs el (n1 + n2) (⟨s1 ++ s2, v, m⟩ : Elaborator O)
          = ((runOutputs el n1 (⟨s1, v, m⟩ : Elaborator O)).1
                ++ (runOutputs el n2 (⟨s2,
                    (runOutputs el n1 (⟨s1, v, m⟩ : Elaborator O)).2.visited, m⟩
                    : Elaborator O)).1,
             (runOutputs el n2 (⟨s2,
                (runOutputs el n1 (⟨s1, v, m⟩ : Elaborator O)).2.visited, m⟩
                : Elaborator O)).2))
    ∧ (∀ (tcx : TyCtxt) (seed : O) (m : ElabFilterMode) (cs : List O),
        childObligations el tcx m seed = cs →
        (∀ c ∈ cs, childObligations el tcx m c = []) →
        ((seed :: cs).map (keyOf el)).Nodup →
        (runOutputs el (1 + cs.length) (applyMode (elaborate el tcx [seed]) m)).1
          = seed :: cs.reverse) := by
  refine ⟨?_, runOutputs_segment el, runOutputs_drain_append el, ?_⟩
  · intro tcx seed m n hnd
    rw [runOutputs_succ_some el n (single_seed_first_step el tcx seed m hnd)]
  · intro tcx seed m cs hch hleaf hnd
    rw [Nat.add_comm, runOutputs_succ_some el cs.length
      (single_seed_first_step el tcx seed m (by rw [hch]; exact hnd))]
    rw [hch]
    have hleafrev : ∀ c ∈ cs.reverse,
        childObligations el
          (⟨tcx, (cs.map (keyOf el)).reverse ++ [keyOf el seed]⟩ : PredicateSet).tcx
          m c = [] := by
      intro c hc
      exact hleaf c (List.mem_reverse.mp hc)
    have hrun := runOutputs_leaves el cs.reverse
      ⟨tcx, (cs.map (keyOf el)).reverse ++ [keyOf el seed]⟩ m hleafrev
    rw [List.length_reverse] at hrun
    rw [hrun]

def c51 : Clause := ⟨[], ClauseKind.traitClause ⟨⟨51, []⟩, Polarity.positive⟩⟩

def c52 : Clause := ⟨[], ClauseKind.traitClause ⟨⟨52, []⟩, Polarity.positive⟩⟩

def c53 : Clause := ⟨[], ClauseKind.traitClause ⟨⟨53, []⟩, Polarity.positive⟩⟩

/-- A two-level implication graph: trait 50 declares traits 51 and 52,
and trait 52 declares trait 53. -/
def tcxC4b : TyCtxt :=
  { tcxEmpty with explicit_implied_predicates_of := fun d =>
      if d = 50 then [(c51, 0), (c52, 1)]
      else if d = 52 then [(c53, 0)] else [] }

def seedD : Predicate :=
  ⟨[], PredicateKind.clause (ClauseKind.traitClause ⟨⟨50, []⟩, Polarity.positive⟩)⟩

/-- The visited set after the seed of tcxC4b has been popped. -/
def vC4b : PredicateSet :=
  ⟨tcxC4b, [Binder.anonymize c52.as_predicate, Binder.anonymize c51.as_predicate,
    Binder.anonymize seedD]⟩

theorem single_seed_reverse_order_witness :
    (runOutputs elabPredicate 3
        (applyMode (elaborate elabPredicate tcxC4 [seed4]) ElabFilterMode.all)).1
      = seed4 :: [c4a.as_predicate, c4b.as_predicate].reverse
    ∧ (runOutputs elabPredicate (3 + 1)
        (applyMode (elaborate elabPredicate tcxC4b [seedD]) ElabFilterMode.all)).1
      = [seedD, c52.as_predicate, c53.as_predicate, c51.as_predicate]
    ∧ runOutputs elabPredicate (2 + 1)
        (⟨[c52.as_predicate] ++ [c51.as_predicate], vC4b,
          ElabFilterMode.all⟩ : Elaborator Predicate)
      = ((runOutputs elabPredicate 2
            (⟨[c52.as_predicate], vC4b, ElabFilterMode.all⟩
              : Elaborator Predicate)).1
          ++ (runOutputs elabPredicate 1
            (⟨[c51.as_predicate],
              (runOutputs elabPredicate 2
                (⟨[c52.as_predicate], vC4b, ElabFilterMode.all⟩
                  : Elaborator Predicate)).2.visited,
              ElabFilterMode.all⟩ : Elaborator Predicate)).1,
         (runOutputs elabPredicate 1
            (⟨[c51.as_predicate],
              (runOutputs elabPredicate 2
                (⟨[c52.as_predicate], vC4b, ElabFilterMode.all⟩
                  : Elaborator Predicate)).2.visited,
              ElabFilterMode.all⟩ : Elaborator Predicate)).2)
    ∧ (runOutputs elabPredicate 2
        (⟨[c52.as_predicate], vC4b, ElabFilterMode.all⟩ : Elaborator Predicate)).1
      = [c52.as_predicate, c53.as_predicate] := by
  refine ⟨?_, ?_, ?_, by decide⟩
  · exact (single_seed_reverse_order elabPredicate).2.2.2 tcxC4 seed4
      ElabFilterMode.all [c4a.as_predicate, c4b.as_predicate]
      (by decide) (by decide) (by decide)
  · rw [(single_seed_reverse_order elabPredicate).1 tcxC4b seedD
      ElabFilterMode.all 3 (by decide)]
    decide
  · exact (single_seed_reverse_order elabPredicate).2.2.1 2 [c52.as_predicate] 1
      [c51.as_predicate] vC4b ElabFilterMode.all (by decide) (by decide)

def b3Clause : Clause := ⟨[], ClauseKind.traitClause ⟨⟨12, []⟩, Polarity.positive⟩⟩

def tcxC3 : TyCtxt :=
  { tcxEmpty with explicit_implied_predicates_of :=
      fun d => if d = 11 then [(b3Clause, 5)] else [] }

def pA3 : Predicate :=
  ⟨[], PredicateKind.clause (ClauseKind.traitClause ⟨⟨10, []⟩, Polarity.positive⟩)⟩

def pB3 : Predicate :=
  ⟨[], PredicateKind.clause (ClauseKind.traitClause ⟨⟨11, []⟩, Polarity.positive⟩)⟩

def pB13 : Predicate := b3Clause.as_predicate

/-- C3 counterexample: seeding [A, B] where elaborating B yields child
B1 and A yields nothing produces the output sequence [B, B1, A]; in
particular the sequence does not begin [A, B, B1]. -/
theorem seed_order_counterexample :
    childObligations elabPredicate tcxC3 ElabFilterMode.all pA3 = []
    ∧ childObligations elabPredicate tcxC3 ElabFilterMode.all pB3 = [pB13]
    ∧ childObligations elabPredicate tcxC3 ElabFilterMode.all pB13 = []
    ∧ (runOutputs elabPredicate 3 (elaborate elabPredicate tcxC3 [pA3, pB3])).1
        = [pB3, pB13, pA3]
    ∧ (runOutputs elabPredicate 3 (elaborate elabPredicate tcxC3 [pA3, pB3])).1
        ≠ [pA3, pB3, pB13] := by
  exact ⟨by decide, by decide, by decide, by decide, by decide⟩

/-- C3 (amended): for seeds [A, B] where elaborating B yields exactly
the fresh leaf B1 and A yields nothing, the output sequence is
[B, B1, A], after which the iterator is exhausted: seeds are pushed in
input order and popped LIFO, so the last seed of the input collection is
fully elaborated depth-first before earlier seeds are reached. -/
theorem seed_order_lifo (tcx : TyCtxt) (A B B1 : Predicate)
    (hA : childObligations elabPredicate tcx ElabFilterMode.all A = [])
    (hB : childObligations elabPredicate tcx ElabFilterMode.all B = [B1])
    (hB1 : childObligations elabPredicate tcx ElabFilterMode.all B1 = [])
    (hAB : Binder.anonymize A ≠ Binder.anonymize B)
    (hB1A : Binder.anonymize B1 ≠ Binder.anonymize A)
    (hB1B : Binder.anonymize B1 ≠ Binder.anonymize B) :
    (runOutputs elabPredicate 3 (elaborate elabPredicate tcx [A, B])).1 = [B, B1, A]
    ∧ Elaborator.next elabPredicate
        (runOutputs elabPredicate 3 (elaborate elabPredicate tcx [A, B])).2 = none := by
  have hfresh0 : ∀ o ∈ [A, B], keyOf elabPredicate o ∉ (PredicateSet.new tcx).set := by
    intro o _
    simp [PredicateSet.new]
  have hnd0 : (([A, B]).map (keyOf elabPredicate)).Nodup := by
    simp [keyOf_elabPredicate, hAB]
  have hs0 : elaborate elabPredicate tcx [A, B]
      = ⟨[B, A], ⟨tcx, [Binder.anonymize B, Binder.anonymize A]⟩,
          ElabFilterMode.all⟩ := by
    rw [elaborate_eq,
      keepNewlyInserted_all_fresh elabPredicate [A, B] (PredicateSet.new tcx) hnd0 hfresh0]
    simp [PredicateSet.new, keyOf_elabPredicate]
  have h1 : Elaborator.next elabPredicate
      (⟨[B, A], ⟨tcx, [Binder.anonymize B, Binder.anonymize A]⟩,
        ElabFilterMode.all⟩ : Elaborator Predicate)
      = some (B,
        ⟨[B1, A],
          ⟨tcx, [Binder.anonymize B1, Binder.anonymize B, Binder.anonymize A]⟩,
          ElabFilterMode.all⟩) := by
    rw [elaborate_cons]
    have hB2 : childObligations elabPredicate
        (⟨tcx, [Binder.anonymize B, Binder.anonymize A]⟩ : PredicateSet).tcx
        ElabFilterMode.all B = [B1] := hB
    rw [hB2]
    rw [keepNewlyInserted_cons_fresh elabPredicate []
      (by
        intro hmem
        rcases List.mem_cons.mp hmem with h | h
        · exact hB1B h
        · rcases List.mem_cons.mp h with h | h
          · exact hB1A h
          · simp at h)]
    rw [keepNewlyInserted_nil]
    simp [elabPredicate_predicate]
  have h2 : Elaborator.next elabPredicate
      (⟨[B1, A],
        ⟨tcx, [Binder.anonymize B1, Binder.anonymize B, Binder.anonymize A]⟩,
        ElabFilterMode.all⟩ : Elaborator Predicate)
      = some (B1,
        ⟨[A],
          ⟨tcx, [Binder.anonymize B1, Binder.anonymize B, Binder.anonymize A]⟩,
          ElabFilterMode.all⟩) := by
    rw [elaborate_cons]
    have hB12 : childObligations elabPredicate
        (⟨tcx, [Binder.anonymize B1, Binder.anonymize B, Binder.anonymize A]⟩
          : PredicateSet).tcx ElabFilterMode.all B1 = [] := hB1
    rw [hB12, keepNewlyInserted_nil]
    simp
  have h3 : Elaborator.next elabPredicate
      (⟨[A],
        ⟨tcx, [Binder.anonymize B1, Binder.anonymize B, Binder.anonymize A]⟩,
        ElabFilterMode.all⟩ : Elaborator Predicate)
      = some (A,
        ⟨[],
          ⟨tcx, [Binder.anonymize B1, Binder.anonymize B, Binder.anonymize A]⟩,
          ElabFilterMode.all⟩) := by
    rw [elaborate_cons]
    have hA2 : childObligations elabPredicate
        (⟨tcx, [Binder.anonymize B1, Binder.anonymize B, Binder.anonymize A]⟩
          : PredicateSet).tcx ElabFilterMode.all A = [] := hA
    rw [hA2, keepNewlyInserted_nil]
    simp
  have hrun : runOutputs elabPredicate 3 (elaborate elabPredicate tcx [A, B])
      = ([B, B1, A],
        ⟨[], ⟨tcx, [Binder.anonymize B1, Binder.anonymize B, Binder.anonymize A]⟩,
          ElabFilterMode.all⟩) := by
    rw [hs0]
    rw [show (3 : Nat) = 2 + 1 from rfl, runOutputs_succ_some elabPredicate 2 h1]
    rw [show (2 : Nat) = 1 + 1 from rfl, runOutputs_succ_some elabPredicate 1 h2]
    rw [show (1 : Nat) = 0 + 1 from rfl, runOutputs_succ_some elabPredicate 0 h3]
    rw [runOutputs_zero]
  rw [hrun]
  exact ⟨rfl, rfl⟩

theorem seed_order_lifo_witness :
    (runOutputs elabPredicate 3 (elaborate elabPredicate tcxC3 [pA3, pB3])).1
        = [pB3, pB13, pA3]
    ∧ Elaborator.next elabPredicate
        (runOutputs elabPredicate 3 (elaborate elabPredicate tcxC3 [pA3, pB3])).2 = none :=
  seed_order_lifo tcxC3 pA3 pB3 pB13 (by decide) (by decide) (by decide)
    (by decide) (by decide) (by decide)

end TraitElaboration

namespace TraitElaboration

/-- C1: for every obligation representation, environment, finite seed
collection and mode, if every derivable child key lies in a fixed
finite universe (a finite, possibly self-referential
declared-implications graph), then repeated pulls exhaust the iterator
after finitely many steps and it stays exhausted — the visited-set gate
in front of every push is what bounds the run. -/
theorem elaborator_terminates {O : Type} (el : Elaboratable O) (tcx : TyCtxt)
    (seeds : List O) (m : ElabFilterMode) (U : Finset Predicate)
    (hcl : ∀ (o c : O), c ∈ childObligations el tcx m o → keyOf el c ∈ U) :
    ∃ N : Nat, ∀ n : Nat, N ≤ n →
      Elaborator.next el (iterSteps el n (applyMode (elaborate el tcx seeds) m)) = none := by
  rw [elaborate_eq, applyMode_mk]
  exact exhausts_of_measure el U tcx m hcl
    (elabMeasure U
      (⟨(keepNewlyInserted el (PredicateSet.new tcx) seeds).1.reverse,
        (keepNewlyInserted el (PredicateSet.new tcx) seeds).2, m⟩ : Elaborator O))
    (keepNewlyInserted el (PredicateSet.new tcx) seeds).1.reverse
    (keepNewlyInserted el (PredicateSet.new tcx) seeds).2
    (keepNewlyInserted_props el seeds (PredicateSet.new tcx)).1
    (le_refl _)

/-- The self-referential capability of the termination witness: trait 0
declares itself (trait 0, positively) as its own implied predicate. -/
def selfClauseC1 : Clause := ⟨[], ClauseKind.traitClause ⟨⟨0, []⟩, Polarity.positive⟩⟩

def tcxC1 : TyCtxt :=
  { explicit_implied_predicates_of := fun _ => [(selfClauseC1, 0)]
  , explicit_super_predicates_of := fun _ => [(selfClauseC1, 0)]
  , explicit_supertraits_containing_assoc_item := fun _ _ => []
  , instantiate_supertrait := fun c _ => c
  , push_outlives_components := fun _ => [] }

theorem elaborator_terminates_witness :
    ∃ N : Nat, ∀ n : Nat, N ≤ n →
      Elaborator.next elabPredicate
        (iterSteps elabPredicate n
          (applyMode (elaborate elabPredicate tcxC1 [selfClauseC1.as_predicate])
            ElabFilterMode.all)) = none := by
  refine elaborator_terminates elabPredicate tcxC1 [selfClauseC1.as_predicate]
    ElabFilterMode.all {Binder.anonymize selfClauseC1.as_predicate} ?_
  intro o c hc
  obtain ⟨bv, val⟩ := o
  cases val with
  | nonClause k =>
    simp [childObligations, elabPredicate_predicate, Predicate.as_clause] at hc
  | clause ck =>
    cases ck with
    | traitClause data =>
      simp only [childObligations, elabPredicate_predicate, Predicate.as_clause,
        Binder.skip_binder, tcxC1] at hc
      split at hc
      · simp at hc
      · simp [elabPredicate, Binder.rebind, List.enum, List.enumFrom] at hc
        subst hc
        decide
    | typeOutlives ty r =>
      simp only [childObligations, elabPredicate_predicate, Predicate.as_clause,
        Binder.skip_binder, tcxC1] at hc
      split at hc
      · simp at hc
      · simp at hc
    | regionOutlives r1 r2 =>
      simp [childObligations, elabPredicate_predicate, Predicate.as_clause,
        Binder.skip_binder] at hc
    | wellFormed t =>
      simp [childObligations, elabPredicate_predicate, Predicate.as_clause,
        Binder.skip_binder] at hc
    | projection i =>
      simp [childObligations, elabPredicate_predicate, Predicate.as_clause,
        Binder.skip_binder] at hc
    | constEvaluatable i =>
      simp [childObligations, elabPredicate_predicate, Predicate.as_clause,
        Binder.skip_binder] at hc
    | constArgHasType i =>
      simp [childObligations, elabPredicate_predicate, Predicate.as_clause,
        Binder.skip_binder] at hc

/-- C10: over any run of any Elaborator — any representation, any
environment, any finite seed collection, any mode — the produced
obligations have pairwise distinct canonical keys; equivalently, no two
produced predicates are alpha-equivalent: every obligation passes the
visited-set gate exactly once before being pushed, and the visited set
only grows. -/
theorem output_keys_nodup {O : Type} (el : Elaboratable O) (tcx : TyCtxt)
    (seeds : List O) (m : ElabFilterMode) (n : Nat) :
    ((runOutputs el n (applyMode (elaborate el tcx seeds) m)).1.map (keyOf el)).Nodup
    ∧ ((runOutputs el n (applyMode (elaborate el tcx seeds) m)).1.map
        (fun o => el.predicate o)).Pairwise
      (fun p q => ¬ alphaEquivalentSpec p q) := by
  have hmain :
      ((runOutputs el n (applyMode (elaborate el tcx seeds) m)).1.map (keyOf el)).Nodup := by
    rw [elaborate_eq, applyMode_mk]
    obtain ⟨hK1, hK2, hK3, hK4, hK5, hK6⟩ :=
      keepNewlyInserted_props el seeds (PredicateSet.new tcx)
    have hnd :
        (((keepNewlyInserted el (PredicateSet.new tcx) seeds).1.reverse).map
          (keyOf el)).Nodup := by
      rw [List.map_reverse]
      exact List.nodup_reverse.mpr hK3
    have hsub : ∀ o ∈ (keepNewlyInserted el (PredicateSet.new tcx) seeds).1.reverse,
        keyOf el o ∈ (keepNewlyInserted el (PredicateSet.new tcx) seeds).2.set :=
      fun o ho => hK5 o (List.mem_reverse.mp ho)
    obtain ⟨A, B, C, D⟩ := runOutputs_invariant el n
      (keepNewlyInserted el (PredicateSet.new tcx) seeds).1.reverse
      (keepNewlyInserted el (PredicateSet.new tcx) seeds).2 m hnd hsub
    exact (List.nodup_append.mp A).1
  refine ⟨hmain, ?_⟩
  rw [List.pairwise_map]
  have h3 := List.pairwise_map.mp hmain
  exact h3.imp (fun hne halpha => hne ((anonymize_eq_iff _ _).mpr halpha))

end TraitElaboration
